import Mathlib

/-!
Verification of the resume-transformation pipeline (src/main.py).

Python strings are modelled as `List Char` (ASCII-faithful for the inputs the
claims concern).  Python's `str.strip`, `str.lower`, `str.split(',')`,
`', '.join`, `str.replace`, substring membership (`in`), `sorted(list(set(..)))`
are embedded below, and the deterministic parts of the endpoint
(`transform_resume_endpoint`), the link normalizer (`enforce_absolute_urls`)
and the retry loop (`call_gemini_api`) are translated on top of them.
-/

abbrev PyStr := List Char

/-- ASCII whitespace recognised by `str.strip`. -/
def isSpaceChar (c : Char) : Bool :=
  decide (c.toNat = 32 ∨ c.toNat = 9 ∨ c.toNat = 10 ∨ c.toNat = 13 ∨
          c.toNat = 11 ∨ c.toNat = 12)

/-- ASCII lowering of one character, as `str.lower` acts on ASCII. -/
def lowerChar (c : Char) : Char :=
  if h : 65 ≤ c.toNat ∧ c.toNat ≤ 90 then
    Char.ofNatAux (c.toNat + 32) (Or.inl (by omega))
  else c

/-- `str.lower` (ASCII fragment). -/
def pylower (s : PyStr) : PyStr := s.map lowerChar

/-- `str.strip()`: drop leading and trailing whitespace. -/
def pystrip (s : PyStr) : PyStr :=
  (((s.dropWhile isSpaceChar).reverse.dropWhile isSpaceChar)).reverse

/-- `s.split(sep)` for a one-character separator, with Python semantics:
`''.split(',') = ['']`, empty pieces are kept. -/
def pysplit (sep : Char) : PyStr → List PyStr
  | [] => [[]]
  | c :: rest =>
    if c = sep then [] :: pysplit sep rest
    else
      match pysplit sep rest with
      | [] => [[c]]
      | t :: ts => (c :: t) :: ts

/-- `sep.join(pieces)`. -/
def pyjoin (sep : PyStr) : List PyStr → PyStr
  | [] => []
  | [x] => x
  | x :: y :: rest => x ++ sep ++ pyjoin sep (y :: rest)

/-- Python `a <= b` on strings: lexicographic comparison by code point. -/
def lexLe : PyStr → PyStr → Bool
  | [], _ => true
  | _ :: _, [] => false
  | a :: as_, b :: bs => if a = b then lexLe as_ bs else decide (a.toNat < b.toNat)

/-- The relation underlying `sorted`. -/
def lexLeR (a b : PyStr) : Prop := lexLe a b = true

instance : DecidableRel lexLeR := fun a b => by
  unfold lexLeR; infer_instance

/-- `sorted(list(set(L)))`: Python's canonical sorted list of the distinct
elements of `L`. -/
def pySortedSet (L : List PyStr) : List PyStr :=
  List.insertionSort lexLeR L.dedup

/-- `skill.lower().strip()`, the normal form used for keyword comparison. -/
def normKw (s : PyStr) : PyStr := pystrip (pylower s)

/-- `[skill.strip() for skill in s.split(',')]`. -/
def splitTokens (s : PyStr) : List PyStr := (pysplit ',' s).map pystrip

/-- `[skill.strip() for skill in s.split(',') if skill.strip()]`. -/
def tokensOf (s : PyStr) : List PyStr := (splitTokens s).filter (· ≠ [])

/-- Auxiliary scanner for `str.replace`: when the counter is positive the
characters still belong to an already-matched occurrence and are consumed;
at `0` the scanner tries to match `pat` at the current position, emitting
`rep` on a match, exactly like CPython's left-to-right non-overlapping scan. -/
def replGo (pat rep : List Char) : Nat → List Char → List Char
  | _, [] => []
  | 0, c :: rest =>
    if pat.isPrefixOf (c :: rest) then rep ++ replGo pat rep (pat.length - 1) rest
    else c :: replGo pat rep 0 rest
  | Nat.succ n, _ :: rest => replGo pat rep n rest

/-- `s.replace(pat, rep)` for a non-empty `pat`. -/
def pyreplace (pat rep s : PyStr) : PyStr := replGo pat rep 0 s

/-- Python's substring test `pat in s`. -/
def containsSub (pat : PyStr) : PyStr → Bool
  | [] => pat.isEmpty
  | c :: rest => pat.isPrefixOf (c :: rest) || containsSub pat rest

/-- String constants of `enforce_absolute_urls`. -/
def httpSch : PyStr := "http://".toList

def httpsSch : PyStr := "https://".toList

def doubledSch : PyStr := "https://https://".toList

def linkedinDom : PyStr := "linkedin.com".toList

def httpsLinkedin : PyStr := "https://linkedin.com".toList

def githubDom : PyStr := "github.com".toList

def httpsGithub : PyStr := "https://github.com".toList

def netlifyDom : PyStr := "netlify.app".toList

def portfolioHost : PyStr := "ayaanahmad-portfolio.netlify.app".toList

def httpsPortfolio : PyStr := "https://ayaanahmad-portfolio.netlify.app".toList

/-- Line 110: `contact_line.replace('http://', 'https://')`. -/
def fixHttpScheme (s : PyStr) : PyStr := pyreplace httpSch httpsSch s

/-- Lines 113 and 124: `contact_line.replace('https://https://', 'https://')`. -/
def collapseDoubledScheme (s : PyStr) : PyStr := pyreplace doubledSch httpsSch s

/-- Lines 116-117: prefix `linkedin.com` when no `https://linkedin.com` present. -/
def addLinkedinScheme (s : PyStr) : PyStr :=
  if containsSub linkedinDom s && ! containsSub httpsLinkedin s then
    pyreplace linkedinDom httpsLinkedin s
  else s

/-- Lines 118-119: prefix `github.com` when no `https://github.com` present. -/
def addGithubScheme (s : PyStr) : PyStr :=
  if containsSub githubDom s && ! containsSub httpsGithub s then
    pyreplace githubDom httpsGithub s
  else s

/-- Lines 120-121: prefix the portfolio host when the line has `netlify.app`
but no `https://` at all. -/
def addPortfolioScheme (s : PyStr) : PyStr :=
  if containsSub netlifyDom s && ! containsSub httpsSch s then
    pyreplace portfolioHost httpsPortfolio s
  else s

/-- `enforce_absolute_urls` (src/main.py lines 104-125), step for step:
rewrite `http://`, collapse doubles, conditionally prefix the known domains,
collapse doubles once more. -/
def enforce_absolute_urls (contact_line : PyStr) : PyStr :=
  if contact_line = [] then []
  else
    collapseDoubledScheme
      (addPortfolioScheme
        (addGithubScheme
          (addLinkedinScheme
            (collapseDoubledScheme (fixHttpScheme contact_line)))))

/-- `resume_skills_set` (lines 1822-1824): the normalized comma-tokens of the
current skills string. -/
def resumeSkillsSetOf (s : PyStr) : List PyStr :=
  ((splitTokens s).filter (· ≠ [])).map normKw

/-- `jd_skills_set` (line 1818): the normalized master keywords. -/
def jdSkillsSetOf (master : List PyStr) : List PyStr :=
  (master.filter (· ≠ [])).map normKw

/-- `missing_skills = jd_skills_set - resume_skills_set` (line 1827). -/
def missingSkillsOf (master : List PyStr) (s : PyStr) : List PyStr :=
  (jdSkillsSetOf master).filter (fun n => ¬ n ∈ resumeSkillsSetOf s)

/-- `original_case_missing` (lines 1835-1838). -/
def originalCaseMissing (master : List PyStr) (s : PyStr) : List PyStr :=
  master.filter (fun sk => sk ≠ [] ∧ normKw sk ∈ missingSkillsOf master s)

/-- The Python-only brute-force keyword append (src/main.py lines 1814-1848).
Python set iteration order only feeds `sorted(list(set(...)))` and set
membership tests, so sets are modelled as lists up to membership. -/
def bruteForceAppend (master_keyword_list : List PyStr) (current_skills_str : PyStr) : PyStr :=
  if missingSkillsOf master_keyword_list current_skills_str = [] then current_skills_str
  else
    pyjoin (", ".toList)
      (pySortedSet
        ((splitTokens current_skills_str ++
          originalCaseMissing master_keyword_list current_skills_str).filter (· ≠ [])))

/-- The four keyword tiers of the JD analysis report. -/
structure JDKeywords where
  hard_skills : List PyStr
  soft_skills : List PyStr
  tools : List PyStr
  domain_phrases : List PyStr

/-- `jd_all_skills_list_call1` (line 1582): hard + tools + domain + soft. -/
def jdAllSkillsList (k : JDKeywords) : List PyStr :=
  k.hard_skills ++ k.tools ++ k.domain_phrases ++ k.soft_skills

/-- `jd_all_skills_set_call1 = sorted(list(set(s for s in L if s)))` (line 1587). -/
def jdAllSkillsSet (jd_all : List PyStr) : List PyStr :=
  pySortedSet (jd_all.filter (· ≠ []))

/-- `master_keyword_list = sorted(list(set(jd_all_skills_set_call1 + missing_keywords)))`
(line 1637). -/
def master_keyword_list (k : JDKeywords) (missing_keywords : List PyStr) : List PyStr :=
  pySortedSet (jdAllSkillsSet (jdAllSkillsList k) ++ missing_keywords)

/-- `visible_set` (lines 1864-1870): lowered, stripped tier-1 and tier-2
keywords of the JD analysis report. -/
def visibleSetOf (hard soft : List PyStr) : List PyStr :=
  (((hard.map pystrip).filter (· ≠ [])) ++ ((soft.map pystrip).filter (· ≠ []))).map pylower

/-- `visible_skills` accumulated by the loop of lines 1876-1880. -/
def visibleSkillsOf (hard soft : List PyStr) (s : PyStr) : List PyStr :=
  (tokensOf s).filter (fun sk => pylower sk ∈ visibleSetOf hard soft)

/-- `invisible_skills` accumulated by the loop of lines 1876-1880. -/
def invisibleSkillsOf (hard soft : List PyStr) (s : PyStr) : List PyStr :=
  (tokensOf s).filter (fun sk => ¬ pylower sk ∈ visibleSetOf hard soft)

/-- `", ".join(skills) if skills else ""` (lines 1883-1884). -/
def joinOrEmpty (L : List PyStr) : PyStr :=
  if L = [] then [] else pyjoin (", ".toList) L

/-- The skills partition (lines 1858-1892), at the string level: returns the
`skills_visible` and `skills_invisible` strings. -/
def partitionSkillsStr (hard soft : List PyStr) (current_skills_str : PyStr) : PyStr × PyStr :=
  if current_skills_str = [] then ([], [])
  else
    (joinOrEmpty (visibleSkillsOf hard soft current_skills_str),
     joinOrEmpty (invisibleSkillsOf hard soft current_skills_str))

/-- The fields of `final_resume_object` the verified stages read and write. -/
structure PyResume where
  skills : Option PyStr
  skills_visible : Option PyStr
  skills_invisible : Option PyStr
  contactLine : PyStr
deriving DecidableEq

/-- The whole partition step (lines 1856-1898, the non-raising path):
read `skills` with default `''`, partition, store both output fields, delete
the `skills` key. -/
def partitionSkillsStep (hard soft : List PyStr) (r : PyResume) : PyResume :=
  let p := partitionSkillsStr hard soft (r.skills.getD [])
  { r with skills := none, skills_visible := some p.1, skills_invisible := some p.2 }

/-- The `except` fallback of the partition step (lines 1900-1906): when the
`skills` key is present, move it wholesale into `skills_visible`. -/
def partitionSkillsFallback (r : PyResume) : PyResume :=
  if r.skills.isSome then
    { r with skills := none, skills_visible := some (r.skills.getD []),
             skills_invisible := some [] }
  else r

/-- One outcome of `client.post` + `raise_for_status` in `call_gemini_api`. -/
inductive AttemptOutcome where
  | success : PyStr → AttemptOutcome
  | httpStatus : Nat → PyStr → AttemptOutcome
  | requestError : PyStr → AttemptOutcome

/-- The value `call_gemini_api` returns. -/
inductive GeminiResult where
  | payload : PyStr → GeminiResult
  | clientError : Nat → PyStr → GeminiResult
  | retriesExhausted : GeminiResult
deriving DecidableEq

/-- `delay = (base_delay * 2**attempt) + (attempt * 0.1)` (lines 1450, 1456). -/
def backoffDelay (base : ℚ) (attempt : Nat) : ℚ :=
  base * 2 ^ attempt + attempt * (1 / 10)

def max_retries : Nat := 5

def base_delay : ℚ := 1

/-- The observable behaviour of one `call_gemini_api` invocation: final value,
number of attempts issued, and the sleeps performed between/after attempts. -/
structure CallTrace where
  result : GeminiResult
  attemptsMade : Nat
  sleeps : List ℚ
deriving DecidableEq

/-- The `for attempt in range(max_retries)` loop of `call_gemini_api`
(lines 1419-1458): 4xx returns at once, 5xx and transport errors sleep and
retry, and falling off the loop yields the generic failure dict (line 1461). -/
def callGeminiGo (responses : Nat → AttemptOutcome) : Nat → Nat → CallTrace
  | 0, _ => ⟨.retriesExhausted, 0, []⟩
  | fuel + 1, attempt =>
    match responses attempt with
    | .success p => ⟨.payload p, 1, []⟩
    | .httpStatus code body =>
      if 400 ≤ code ∧ code < 500 then ⟨.clientError code body, 1, []⟩
      else
        let rest := callGeminiGo responses fuel (attempt + 1)
        ⟨rest.result, rest.attemptsMade + 1, backoffDelay base_delay attempt :: rest.sleeps⟩
    | .requestError _ =>
      let rest := callGeminiGo responses fuel (attempt + 1)
      ⟨rest.result, rest.attemptsMade + 1, backoffDelay base_delay attempt :: rest.sleeps⟩

/-- `call_gemini_api` as a function of the per-attempt outcomes. -/
def call_gemini_api (responses : Nat → AttemptOutcome) : CallTrace :=
  callGeminiGo responses max_retries 0

/-- An integer form field as received by the endpoint. -/
inductive FormField where
  | absent : FormField
  | invalid : FormField
  | value : Int → FormField

/-- Modelled from the spec: resolution of `time_in_weeks: int = Form(default=2)`
and `ai_multiplier: int = Form(default=2)` by the HTTP framework (an external
collaborator): an absent field takes the default, an unparseable field is
rejected with a 422 validation error before the endpoint body runs, and a
parsed integer is passed through unchanged. -/
def resolveIntForm (field : FormField) (defaultVal : Int) : Except Nat Int :=
  match field with
  | .absent => .ok defaultVal
  | .invalid => .error 422
  | .value n => .ok n

/-- The placeholders of `RESUME_TRANSFORM_PROMPT_TEMPLATE` (lines 1643-1651). -/
def resumePh : PyStr := "[Paste your resume here]".toList

def jdPh : PyStr := "[Paste job description here]".toList

def tiwPh : PyStr := "[Optional: TIME_IN_WEEKS e.g., 2]".toList

def aimPh : PyStr := "[Optional: AI_MULTIPLIER e.g., 3]".toList

/-- `str(n)` for an int. -/
def intToPyStr (n : Int) : PyStr := (toString n).toList

/-- The transform-prompt construction (lines 1643-1651): four successive
`str.replace` calls on the template, in source order. -/
def buildTransformPrompt (template original_resume_text job_description : PyStr)
    (time_in_weeks ai_multiplier : Int) : PyStr :=
  pyreplace aimPh (intToPyStr ai_multiplier)
    (pyreplace tiwPh (intToPyStr time_in_weeks)
      (pyreplace jdPh job_description
        (pyreplace resumePh original_resume_text template)))

theorem charToNat_inj {x y : Char} (h : x.toNat = y.toNat) : x = y :=
  Char.eq_of_val_eq (UInt32.ext h)

theorem lexLe_total : ∀ a b : PyStr, lexLe a b = true ∨ lexLe b a = true := by
  intro a
  induction a with
  | nil => intro b; left; rfl
  | cons x xs ih =>
    intro b
    cases b with
    | nil => right; rfl
    | cons y ys =>
      by_cases h : x = y
      · subst h
        simpa [lexLe] using ih ys
      · have hne : x.toNat ≠ y.toNat := fun e => h (charToNat_inj e)
        have hne' : y ≠ x := fun e => h e.symm
        simp only [lexLe, if_neg h, if_neg hne', decide_eq_true_eq]
        omega

theorem lexLe_trans : ∀ {a b c : PyStr}, lexLe a b = true → lexLe b c = true →
    lexLe a c = true := by
  intro a
  induction a with
  | nil => intro b c _ _; rfl
  | cons x xs ih =>
    intro b c hab hbc
    cases b with
    | nil => simp [lexLe] at hab
    | cons y ys =>
      cases c with
      | nil => simp [lexLe] at hbc
      | cons z zs =>
        by_cases hxy : x = y <;> by_cases hyz : y = z
        · subst hxy; subst hyz
          simp only [lexLe, if_pos rfl] at hab hbc ⊢
          exact ih hab hbc
        · subst hxy
          simpa [lexLe, hyz] using hbc
        · subst hyz
          simpa [lexLe, hxy] using hab
        · have h1 : x.toNat < y.toNat := by
            simpa [lexLe, hxy] using hab
          have h2 : y.toNat < z.toNat := by
            simpa [lexLe, hyz] using hbc
          have hxz : x ≠ z := by
            intro e; subst e; omega
          simp only [lexLe, if_neg hxz, decide_eq_true_eq]
          omega

instance : IsTotal PyStr lexLeR := ⟨lexLe_total⟩

instance : IsTrans PyStr lexLeR := ⟨fun _ _ _ => lexLe_trans⟩

theorem pySortedSet_sorted (L : List PyStr) : List.Sorted lexLeR (pySortedSet L) :=
  List.sorted_insertionSort lexLeR L.dedup

theorem pySortedSet_nodup (L : List PyStr) : (pySortedSet L).Nodup :=
  ((List.perm_insertionSort lexLeR L.dedup).nodup_iff).mpr L.nodup_dedup

theorem mem_pySortedSet {x : PyStr} {L : List PyStr} : x ∈ pySortedSet L ↔ x ∈ L := by
  unfold pySortedSet
  rw [List.mem_insertionSort, List.mem_dedup]

theorem toNat_ofNatAux (n : Nat) (h : n.isValidChar) : (Char.ofNatAux n h).toNat = n := rfl

theorem isSpaceChar_lowerChar (c : Char) : isSpaceChar (lowerChar c) = isSpaceChar c := by
  unfold lowerChar
  split
  case isTrue h =>
    unfold isSpaceChar
    rw [toNat_ofNatAux]
    exact decide_eq_decide.mpr (by omega)
  case isFalse h => rfl

theorem dropWhile_self_idem (p : Char → Bool) (s : List Char) :
    (s.dropWhile p).dropWhile p = s.dropWhile p := by
  induction s with
  | nil => rfl
  | cons c rest ih =>
    by_cases h : p c = true
    · rw [List.dropWhile_cons_of_pos h, ih]
    · have h' : p c = false := by simpa using h
      rw [List.dropWhile_cons_of_neg (by simp [h']), List.dropWhile_cons_of_neg (by simp [h'])]

theorem pystrip_cons_space {c : Char} (h : isSpaceChar c = true) (s : PyStr) :
    pystrip (c :: s) = pystrip s := by
  unfold pystrip
  rw [List.dropWhile_cons_of_pos h]

theorem dropWhile_reverse_dropWhile_reverse (p : Char → Bool) (s : List Char)
    (hs : s.dropWhile p = s) :
    ((s.reverse.dropWhile p).reverse).dropWhile p = (s.reverse.dropWhile p).reverse := by
  have hpre : (s.reverse.dropWhile p).reverse <+: s := by
    have : s.reverse.dropWhile p <:+ s.reverse := List.dropWhile_suffix p
    simpa using this.reverse
  obtain ⟨t, ht⟩ := hpre
  cases hrev : (s.reverse.dropWhile p).reverse with
  | nil => rfl
  | cons x xs =>
    have hx : p x = false := by
      rw [hrev] at ht
      rw [← ht] at hs
      cases hpx : p x with
      | false => rfl
      | true =>
        rw [List.cons_append, List.dropWhile_cons_of_pos hpx] at hs
        have hle := (List.dropWhile_suffix p (l := xs ++ t)).length_le
        rw [hs] at hle
        simp at hle
    rw [List.dropWhile_cons_of_neg (by simp [hx])]

theorem pystrip_idem (s : PyStr) : pystrip (pystrip s) = pystrip s := by
  unfold pystrip
  set z := s.dropWhile isSpaceChar with hz
  have hz1 : z.dropWhile isSpaceChar = z := dropWhile_self_idem isSpaceChar s
  set u := (z.reverse.dropWhile isSpaceChar).reverse with hu
  have hu1 : u.dropWhile isSpaceChar = u := dropWhile_reverse_dropWhile_reverse isSpaceChar z hz1
  rw [hu1]
  have : u.reverse.dropWhile isSpaceChar = u.reverse := by
    have : u.reverse = z.reverse.dropWhile isSpaceChar := by simp [hu]
    rw [this]
    exact dropWhile_self_idem isSpaceChar z.reverse
  rw [this]
  simp

theorem mem_pystrip {a : Char} {s : PyStr} (h : a ∈ pystrip s) : a ∈ s := by
  unfold pystrip at h
  have h1 := List.mem_reverse.mp h
  have h2 := (List.dropWhile_suffix isSpaceChar).mem h1
  have h3 := List.mem_reverse.mp h2
  exact (List.dropWhile_suffix isSpaceChar).mem h3

theorem pylower_pystrip (s : PyStr) : pylower (pystrip s) = pystrip (pylower s) := by
  unfold pystrip pylower
  have hpf : (isSpaceChar ∘ lowerChar) = isSpaceChar := funext isSpaceChar_lowerChar
  rw [List.dropWhile_map, hpf, ← List.map_reverse, List.dropWhile_map, hpf, List.map_reverse]

theorem normKw_pystrip (t : PyStr) : normKw (pystrip t) = normKw t := by
  unfold normKw
  rw [← pylower_pystrip, ← pylower_pystrip]
  congr 1
  exact pystrip_idem t

theorem pysplit_ne_nil (sep : Char) (s : PyStr) : pysplit sep s ≠ [] := by
  cases s with
  | nil => simp [pysplit]
  | cons c rest =>
    unfold pysplit
    split
    · simp
    · split <;> simp

theorem mem_pysplit_not_sep {sep : Char} {t s : PyStr} (h : t ∈ pysplit sep s) : sep ∉ t := by
  induction s generalizing t with
  | nil =>
    simp [pysplit] at h
    simp [h]
  | cons c rest ih =>
    unfold pysplit at h
    by_cases hc : c = sep
    · rw [if_pos hc] at h
      rcases List.mem_cons.mp h with h | h
      · simp [h]
      · exact ih h
    · rw [if_neg hc] at h
      cases hrec : pysplit sep rest with
      | nil => exact absurd hrec (pysplit_ne_nil sep rest)
      | cons t0 ts =>
        rw [hrec] at h
        rcases List.mem_cons.mp h with h | h
        · subst h
          intro hmem
          rcases List.mem_cons.mp hmem with h | h
          · exact hc h.symm
          · exact ih (hrec ▸ List.mem_cons_self t0 ts) h
        · exact ih (hrec ▸ List.mem_cons.mpr (Or.inr h))

theorem pysplit_no_sep {sep : Char} {s : PyStr} (h : sep ∉ s) : pysplit sep s = [s] := by
  induction s with
  | nil => rfl
  | cons c rest ih =>
    have hc : ¬ c = sep := fun e => h (e ▸ List.mem_cons_self c rest)
    have hrest : sep ∉ rest := fun hm => h (List.mem_cons.mpr (Or.inr hm))
    unfold pysplit
    rw [if_neg hc, ih hrest]

theorem pysplit_cons (sep c : Char) (rest : PyStr) :
    pysplit sep (c :: rest) =
      if c = sep then [] :: pysplit sep rest
      else
        match pysplit sep rest with
        | [] => [[c]]
        | t :: ts => (c :: t) :: ts := rfl

theorem pysplit_append_sep (sep : Char) (x y : PyStr) :
    pysplit sep (x ++ sep :: y) = pysplit sep x ++ pysplit sep y := by
  induction x with
  | nil => simp [pysplit]
  | cons c x' ih =>
    by_cases hc : c = sep
    · subst hc
      rw [List.cons_append, pysplit_cons, if_pos rfl, pysplit_cons, if_pos rfl, ih,
        List.cons_append]
    · rw [List.cons_append, pysplit_cons, if_neg hc, pysplit_cons, if_neg hc, ih]
      cases h2 : pysplit sep x' with
      | nil => exact absurd h2 (pysplit_ne_nil sep x')
      | cons u0 us => simp

theorem pyjoin_cons_cons (sep : PyStr) (x y : PyStr) (rest : List PyStr) :
    pyjoin sep (x :: y :: rest) = x ++ sep ++ pyjoin sep (y :: rest) := rfl

theorem pysplit_join : ∀ (rest : List PyStr) (a : PyStr), ',' ∉ a →
    (∀ t ∈ rest, ',' ∉ t) →
    pysplit ',' (pyjoin (", ".toList) (a :: rest)) = a :: rest.map (fun t => ' ' :: t) := by
  intro rest
  induction rest with
  | nil =>
    intro a ha _
    show pysplit ',' (pyjoin (", ".toList) [a]) = [a]
    have : pyjoin (", ".toList) [a] = a := rfl
    rw [this]
    exact pysplit_no_sep ha
  | cons b rest' ih =>
    intro a ha hb
    have hjoin : pyjoin (", ".toList) (a :: b :: rest') =
        a ++ ',' :: (' ' :: pyjoin (", ".toList) (b :: rest')) := by
      rw [pyjoin_cons_cons, List.append_assoc]
      rfl
    rw [hjoin, pysplit_append_sep, pysplit_no_sep ha]
    have hrec := ih b (hb b (List.mem_cons_self b rest'))
      (fun t ht => hb t (List.mem_cons.mpr (Or.inr ht)))
    rw [pysplit_cons, if_neg (by decide), hrec]
    simp

theorem pystrip_space_cons (t : PyStr) : pystrip (' ' :: t) = pystrip t :=
  pystrip_cons_space (by decide) t

theorem tokensOf_join (L : List PyStr) (hL : L ≠ []) (hc : ∀ t ∈ L, ',' ∉ t)
    (hs : ∀ t ∈ L, pystrip t = t) (hn : ∀ t ∈ L, t ≠ []) :
    tokensOf (pyjoin (", ".toList) L) = L := by
  cases L with
  | nil => exact absurd rfl hL
  | cons a rest =>
    unfold tokensOf splitTokens
    rw [pysplit_join rest a (hc a (List.mem_cons_self a rest))
      (fun t ht => hc t (List.mem_cons.mpr (Or.inr ht)))]
    have hmap : List.map pystrip (a :: rest.map (fun t => ' ' :: t)) = a :: rest := by
      rw [List.map_cons, hs a (List.mem_cons_self a rest), List.map_map]
      congr 1
      have : ∀ t ∈ rest, (pystrip ∘ fun t => ' ' :: t) t = id t := by
        intro t ht
        show pystrip (' ' :: t) = t
        rw [pystrip_space_cons]
        exact hs t (List.mem_cons.mpr (Or.inr ht))
      rw [List.map_congr_left this, List.map_id]
    rw [hmap]
    rw [List.filter_eq_self]
    intro t ht
    simpa using hn t ht

theorem mem_split_space_cons {u z : PyStr} (h : u ∈ pysplit ',' z) :
    ∃ v ∈ pysplit ',' (' ' :: z), pystrip v = pystrip u := by
  cases hz : pysplit ',' z with
  | nil => exact absurd hz (pysplit_ne_nil ',' z)
  | cons h0 tl =>
    have hcons : pysplit ',' (' ' :: z) = (' ' :: h0) :: tl := by
      rw [pysplit_cons, if_neg (by decide), hz]
    rw [hz] at h
    rcases List.mem_cons.mp h with h | h
    · subst h
      exact ⟨' ' :: u, by rw [hcons]; exact List.mem_cons_self _ _, pystrip_space_cons u⟩
    · exact ⟨u, by rw [hcons]; exact List.mem_cons.mpr (Or.inr h), rfl⟩

theorem mem_split_join : ∀ (L : List PyStr) (t : PyStr), t ∈ L → ',' ∉ t →
    ∃ u ∈ pysplit ',' (pyjoin (", ".toList) L), pystrip u = pystrip t := by
  intro L
  induction L with
  | nil => intro t ht _; exact absurd ht (List.not_mem_nil t)
  | cons a rest ih =>
    intro t ht hfree
    rcases List.mem_cons.mp ht with h | h
    · subst h
      cases rest with
      | nil =>
        refine ⟨t, ?_, rfl⟩
        show t ∈ pysplit ',' (pyjoin (", ".toList) [t])
        have : pyjoin (", ".toList) [t] = t := rfl
        rw [this, pysplit_no_sep hfree]
        exact List.mem_cons_self t []
      | cons b rest' =>
        refine ⟨t, ?_, rfl⟩
        have hjoin : pyjoin (", ".toList) (t :: b :: rest') =
            t ++ ',' :: (' ' :: pyjoin (", ".toList) (b :: rest')) := by
          rw [pyjoin_cons_cons, List.append_assoc]
          rfl
        rw [hjoin, pysplit_append_sep, pysplit_no_sep hfree]
        exact List.mem_append.mpr (Or.inl (List.mem_cons_self t []))
    · cases rest with
      | nil => exact absurd h (List.not_mem_nil t)
      | cons b rest' =>
        obtain ⟨u, hu, hstrip⟩ := ih t h hfree
        obtain ⟨v, hv, hvs⟩ := mem_split_space_cons hu
        refine ⟨v, ?_, hvs.trans hstrip⟩
        have hjoin : pyjoin (", ".toList) (a :: b :: rest') =
            a ++ ',' :: (' ' :: pyjoin (", ".toList) (b :: rest')) := by
          rw [pyjoin_cons_cons, List.append_assoc]
          rfl
        rw [hjoin, pysplit_append_sep]
        exact List.mem_append.mpr (Or.inr hv)

theorem mem_splitTokens {t : PyStr} {s : PyStr} (h : t ∈ splitTokens s) :
    pystrip t = t ∧ ',' ∉ t := by
  unfold splitTokens at h
  obtain ⟨u, hu, ht⟩ := List.mem_map.mp h
  subst ht
  exact ⟨pystrip_idem u, fun hm => mem_pysplit_not_sep hu (mem_pystrip hm)⟩

theorem mem_tokensOf {t : PyStr} {s : PyStr} (h : t ∈ tokensOf s) :
    pystrip t = t ∧ ',' ∉ t ∧ t ≠ [] := by
  unfold tokensOf at h
  have h1 := List.mem_filter.mp h
  obtain ⟨hst, hfree⟩ := mem_splitTokens h1.1
  refine ⟨hst, hfree, by simpa using h1.2⟩

/-! ### Lemmas about `str.replace` and substring search -/

theorem isPrefixOfEq {a b : PyStr} : a.isPrefixOf b = true ↔ a <+: b := by simp

theorem replGo_skip (pat rep : PyStr) : ∀ (n : Nat) (s : PyStr),
    replGo pat rep n s = replGo pat rep 0 (s.drop n) := by
  intro n
  induction n with
  | zero => intro s; rfl
  | succ n ih =>
    intro s
    cases s with
    | nil => rfl
    | cons c rest =>
      show replGo pat rep n rest = _
      rw [ih rest]
      rfl

theorem pyreplace_cons_match (pat rep : PyStr) (hpat : pat ≠ []) {c : Char} {rest : PyStr}
    (h : pat.isPrefixOf (c :: rest) = true) :
    pyreplace pat rep (c :: rest) = rep ++ pyreplace pat rep ((c :: rest).drop pat.length) := by
  cases pat with
  | nil => exact absurd rfl hpat
  | cons p0 ps =>
    show replGo (p0 :: ps) rep 0 (c :: rest) = _
    have e : replGo (p0 :: ps) rep 0 (c :: rest) =
        if (p0 :: ps).isPrefixOf (c :: rest) then
          rep ++ replGo (p0 :: ps) rep ((p0 :: ps).length - 1) rest
        else c :: replGo (p0 :: ps) rep 0 rest := rfl
    rw [e, if_pos h, replGo_skip]
    rfl

theorem pyreplace_cons_nomatch {pat rep : PyStr} {c : Char} {rest : PyStr}
    (h : ¬ pat.isPrefixOf (c :: rest) = true) :
    pyreplace pat rep (c :: rest) = c :: pyreplace pat rep rest := by
  show replGo pat rep 0 (c :: rest) = _
  have e : replGo pat rep 0 (c :: rest) =
      if pat.isPrefixOf (c :: rest) then
        rep ++ replGo pat rep (pat.length - 1) rest
      else c :: replGo pat rep 0 rest := rfl
  rw [e, if_neg h]
  rfl

theorem containsSub_iff {pat : PyStr} : ∀ {s : PyStr}, containsSub pat s = true ↔ pat <:+: s := by
  intro s
  induction s with
  | nil =>
    show pat.isEmpty = true ↔ _
    rw [List.isEmpty_iff, List.infix_nil]
  | cons c rest ih =>
    show (pat.isPrefixOf (c :: rest) || containsSub pat rest) = true ↔ _
    rw [Bool.or_eq_true, isPrefixOfEq, ih, List.infix_cons_iff]

theorem eq_append_dropOf {pat s : PyStr} (h : pat <+: s) :
    s = pat ++ s.drop pat.length := by
  obtain ⟨t, rfl⟩ := h
  rw [List.drop_left]

theorem appendPrefixCases {α : Type} {q a b : List α} (h : q <+: a ++ b) :
    q <+: a ∨ ∃ q', q = a ++ q' ∧ q' <+: b := by
  induction a generalizing q with
  | nil => exact Or.inr ⟨q, (List.nil_append q).symm, by simpa using h⟩
  | cons x a' ih =>
    rcases List.prefix_cons_iff.mp h with h0 | ⟨t, hq, ht⟩
    · left
      exact h0 ▸ List.nil_prefix
    · rcases ih ht with h1 | ⟨q', hq', hq'b⟩
      · left
        rw [hq]
        exact List.cons_prefix_cons.mpr ⟨rfl, h1⟩
      · right
        refine ⟨q', ?_, hq'b⟩
        rw [hq, hq']
        rfl

theorem infixAppendCases {α : Type} {q a b : List α} (h : q <:+: a ++ b) :
    q <:+: a ∨ q <:+: b ∨
      ∃ q1 q2, q = q1 ++ q2 ∧ q1 ≠ [] ∧ q2 ≠ [] ∧ q1 <:+ a ∧ q2 <+: b := by
  induction a generalizing q with
  | nil =>
    right; left
    simpa using h
  | cons x a' ih =>
    rw [List.cons_append] at h
    rcases List.infix_cons_iff.mp h with hpre | hinf
    · rcases List.prefix_cons_iff.mp hpre with h0 | ⟨t, hq, ht⟩
      · left
        exact h0 ▸ List.nil_infix
      · rcases appendPrefixCases ht with h1 | ⟨q2, ht2, hq2b⟩
        · left
          rw [hq]
          exact (List.cons_prefix_cons.mpr ⟨rfl, h1⟩).isInfix
        · by_cases hq2 : q2 = []
          · left
            subst hq2
            rw [List.append_nil] at ht2
            rw [hq, ht2]
          · right; right
            refine ⟨x :: a', q2, ?_, by simp, hq2, List.suffix_rfl, hq2b⟩
            rw [hq, ht2]
            rfl
    · rcases ih hinf with h1 | h1 | ⟨q1, q2, hq, h2, h3, h4, h5⟩
      · left
        exact List.infix_cons h1
      · right; left
        exact h1
      · right; right
        exact ⟨q1, q2, hq, h2, h3, h4.trans (List.suffix_cons x a'), h5⟩

theorem pyreplace_of_not_sub {pat rep : PyStr} : ∀ {s : PyStr}, ¬ pat <:+: s →
    pyreplace pat rep s = s := by
  intro s
  induction s with
  | nil => intro _; rfl
  | cons c rest ih =>
    intro h
    have hnp : ¬ pat.isPrefixOf (c :: rest) = true := by
      rw [isPrefixOfEq]
      exact fun hp => h hp.isInfix
    rw [pyreplace_cons_nomatch hnp, ih (fun hi => h (List.infix_cons hi))]

theorem sub_pyreplace_of_sub {pat rep : PyStr} (hpat : pat ≠ []) :
    ∀ {s : PyStr}, pat <:+: s → rep <:+: pyreplace pat rep s := by
  intro s
  induction s with
  | nil =>
    intro h
    rw [List.infix_nil] at h
    exact absurd h hpat
  | cons c rest ih =>
    intro h
    by_cases hp : pat.isPrefixOf (c :: rest) = true
    · rw [pyreplace_cons_match pat rep hpat hp]
      exact (List.prefix_append rep _).isInfix
    · rw [pyreplace_cons_nomatch hp]
      have hrest : pat <:+: rest := by
        rcases List.infix_cons_iff.mp h with hpre | hinf
        · exact absurd (isPrefixOfEq.mpr hpre) hp
        · exact hinf
      exact List.infix_cons (ih hrest)

theorem pyreplace_prefix_cases (pat rep q : PyStr) (hpat : pat ≠ []) (hrq : ¬ rep <:+: q) :
    ∀ (s β : PyStr), β <:+ q → β ≠ [] → β <+: pyreplace pat rep s →
      β <+: s ∨ ∃ α δ, β = α ++ δ ∧ δ ≠ [] ∧ δ <+: rep ∧ (α ++ pat) <+: s := by
  have main : ∀ (n : Nat) (s : PyStr), s.length ≤ n → ∀ β, β <:+ q → β ≠ [] →
      β <+: pyreplace pat rep s →
      β <+: s ∨ ∃ α δ, β = α ++ δ ∧ δ ≠ [] ∧ δ <+: rep ∧ (α ++ pat) <+: s := by
    intro n
    induction n with
    | zero =>
      intro s hs β hβq hβne hβpre
      have hnil : s = [] := List.length_eq_zero.mp (Nat.le_zero.mp hs)
      subst hnil
      exact absurd (List.prefix_nil.mp hβpre) hβne
    | succ n ih =>
      intro s hs β hβq hβne hβpre
      cases s with
      | nil => exact absurd (List.prefix_nil.mp hβpre) hβne
      | cons c rest =>
        by_cases hp : pat.isPrefixOf (c :: rest) = true
        · rw [pyreplace_cons_match pat rep hpat hp] at hβpre
          rcases appendPrefixCases hβpre with h | ⟨β', hβ, _⟩
          · right
            refine ⟨[], β, (List.nil_append β).symm, hβne, h, ?_⟩
            simpa using isPrefixOfEq.mp hp
          · exfalso
            apply hrq
            have h1 : rep <+: β := hβ ▸ List.prefix_append rep β'
            exact h1.isInfix.trans hβq.isInfix
        · rw [pyreplace_cons_nomatch hp] at hβpre
          rcases List.prefix_cons_iff.mp hβpre with h | ⟨t, hβt, htpre⟩
          · exact absurd h hβne
          · by_cases ht : t = []
            · subst ht
              left
              rw [hβt]
              exact ⟨rest, rfl⟩
            · have htq : t <:+ q := by
                refine List.IsSuffix.trans ?_ hβq
                rw [hβt]
                exact List.suffix_cons c t
              have hrest : rest.length ≤ n := by
                simp only [List.length_cons] at hs
                omega
              rcases ih rest hrest t htq ht htpre with h | ⟨α, δ, htαδ, hδne, hδrep, hαpat⟩
              · left
                rw [hβt]
                exact List.cons_prefix_cons.mpr ⟨rfl, h⟩
              · right
                refine ⟨c :: α, δ, ?_, hδne, hδrep, ?_⟩
                · rw [hβt, htαδ]
                  rfl
                · rw [List.cons_append]
                  exact List.cons_prefix_cons.mpr ⟨rfl, hαpat⟩
  intro s
  exact main s.length s le_rfl

theorem not_sub_pyreplace (pat rep q : PyStr) (hpat : pat ≠ [])
    (hrq : ¬ rep <:+: q) (he1 : ¬ q <:+: rep)
    (he2 : ∀ k, k < q.length → 0 < k → ¬ (q.take k) <:+ rep) :
    ∀ s, ¬ q <:+: s →
      (∀ k, k < q.length → 0 < k → (q.drop k) <+: rep → ¬ ((q.take k) ++ pat) <:+: s) →
      ¬ q <:+: pyreplace pat rep s := by
  have main : ∀ (n : Nat) (s : PyStr), s.length ≤ n → ¬ q <:+: s →
      (∀ k, k < q.length → 0 < k → (q.drop k) <+: rep → ¬ ((q.take k) ++ pat) <:+: s) →
      ¬ q <:+: pyreplace pat rep s := by
    intro n
    induction n with
    | zero =>
      intro s hs hq _
      have hnil : s = [] := List.length_eq_zero.mp (Nat.le_zero.mp hs)
      subst hnil
      exact hq
    | succ n ih =>
      intro s hs hq he3
      cases s with
      | nil => exact hq
      | cons c rest =>
        by_cases hp : pat.isPrefixOf (c :: rest) = true
        · rw [pyreplace_cons_match pat rep hpat hp]
          intro hcon
          rcases infixAppendCases hcon with h | h | ⟨q1, q2, hq12, h1, h2, h3, _⟩
          · exact he1 h
          · have hpos : 0 < pat.length := List.length_pos.mpr hpat
            have hdroplen : ((c :: rest).drop pat.length).length ≤ n := by
              rw [List.length_drop]
              simp only [List.length_cons] at hs ⊢
              omega
            have hqdrop : ¬ q <:+: (c :: rest).drop pat.length :=
              fun hh => hq (hh.trans (List.drop_suffix _ _).isInfix)
            have he3' : ∀ k, k < q.length → 0 < k → (q.drop k) <+: rep →
                ¬ ((q.take k) ++ pat) <:+: (c :: rest).drop pat.length :=
              fun k a b d hh => he3 k a b d (hh.trans (List.drop_suffix _ _).isInfix)
            exact ih _ hdroplen hqdrop he3' h
          · have htake : q.take q1.length = q1 := by
              rw [hq12]
              exact List.take_left q1 q2
            have hklt : q1.length < q.length := by
              rw [hq12, List.length_append]
              have := List.length_pos.mpr h2
              omega
            exact he2 q1.length hklt (List.length_pos.mpr h1) (by rw [htake]; exact h3)
        · rw [pyreplace_cons_nomatch hp]
          intro hcon
          rcases List.infix_cons_iff.mp hcon with hpre | hinf
          · rcases List.prefix_cons_iff.mp hpre with h0 | ⟨t, hqt, htpre⟩
            · subst h0
              exact hq List.nil_infix
            · by_cases ht : t = []
              · subst ht
                apply hq
                rw [hqt]
                exact ⟨[], rest, rfl⟩
              · have htq : t <:+ q := by
                  rw [hqt]
                  exact List.suffix_cons c t
                rcases pyreplace_prefix_cases pat rep q hpat hrq rest t htq ht htpre with
                  h | ⟨α, δ, htαδ, hδne, hδrep, hαpat⟩
                · apply hq
                  apply List.IsPrefix.isInfix
                  rw [hqt]
                  exact List.cons_prefix_cons.mpr ⟨rfl, h⟩
                · have hqsplit : q = (c :: α) ++ δ := by
                    rw [hqt, htαδ]
                    rfl
                  have htake2 : q.take (c :: α).length = c :: α := by
                    rw [hqsplit]
                    exact List.take_left _ _
                  have hdrop2 : q.drop (c :: α).length = δ := by
                    rw [hqsplit]
                    exact List.drop_left _ _
                  have hklt : (c :: α).length < q.length := by
                    rw [hqsplit, List.length_append]
                    have := List.length_pos.mpr hδne
                    omega
                  apply he3 (c :: α).length hklt (by simp) (hdrop2 ▸ hδrep)
                  rw [htake2]
                  apply List.IsPrefix.isInfix
                  rw [List.cons_append]
                  exact List.cons_prefix_cons.mpr ⟨rfl, hαpat⟩
          · have hrest : rest.length ≤ n := by
              simp only [List.length_cons] at hs
              omega
            have hq' : ¬ q <:+: rest := fun hh => hq (List.infix_cons hh)
            have he3' : ∀ k, k < q.length → 0 < k → (q.drop k) <+: rep →
                ¬ ((q.take k) ++ pat) <:+: rest :=
              fun k a b d hh => he3 k a b d (List.infix_cons hh)
            exact ih rest hrest hq' he3' hinf
  intro s hq he3
  exact main s.length s le_rfl hq he3

theorem not_pat_sub_pyreplace (pat rep : PyStr) (hpat : pat ≠ [])
    (hrp : ¬ rep <:+: pat) (he1 : ¬ pat <:+: rep)
    (he2 : ∀ k, k < pat.length → 0 < k → ¬ (pat.take k) <:+ rep)
    (he3 : ∀ k, k < pat.length → 0 < k → ¬ (pat.drop k) <+: rep) :
    ∀ s, ¬ pat <:+: pyreplace pat rep s := by
  have main : ∀ (n : Nat) (s : PyStr), s.length ≤ n → ¬ pat <:+: pyreplace pat rep s := by
    intro n
    induction n with
    | zero =>
      intro s hs
      have hnil : s = [] := List.length_eq_zero.mp (Nat.le_zero.mp hs)
      subst hnil
      intro h
      have h' : pat <:+: ([] : PyStr) := h
      exact hpat (List.infix_nil.mp h')
    | succ n ih =>
      intro s hs
      cases s with
      | nil =>
        intro h
        have h' : pat <:+: ([] : PyStr) := h
        exact hpat (List.infix_nil.mp h')
      | cons c rest =>
        by_cases hp : pat.isPrefixOf (c :: rest) = true
        · rw [pyreplace_cons_match pat rep hpat hp]
          intro hcon
          rcases infixAppendCases hcon with h | h | ⟨q1, q2, hq12, h1, h2, h3, _⟩
          · exact he1 h
          · have hdroplen : ((c :: rest).drop pat.length).length ≤ n := by
              have hpos : 0 < pat.length := List.length_pos.mpr hpat
              rw [List.length_drop]
              simp only [List.length_cons] at hs ⊢
              omega
            exact ih _ hdroplen h
          · have htake : pat.take q1.length = q1 := by
              rw [hq12]
              exact List.take_left q1 q2
            have hklt : q1.length < pat.length := by
              rw [hq12, List.length_append]
              have := List.length_pos.mpr h2
              omega
            exact he2 q1.length hklt (List.length_pos.mpr h1) (by rw [htake]; exact h3)
        · rw [pyreplace_cons_nomatch hp]
          intro hcon
          rcases List.infix_cons_iff.mp hcon with hpre | hinf
          · rcases List.prefix_cons_iff.mp hpre with h0 | ⟨t, hqt, htpre⟩
            · exact hpat h0
            · by_cases ht : t = []
              · subst ht
                apply hp
                rw [isPrefixOfEq, hqt]
                exact ⟨rest, rfl⟩
              · have htq : t <:+ pat := by
                  rw [hqt]
                  exact List.suffix_cons c t
                rcases pyreplace_prefix_cases pat rep pat hpat hrp rest t htq ht htpre with
                  h | ⟨α, δ, htαδ, hδne, hδrep, hαpat⟩
                · apply hp
                  rw [isPrefixOfEq, hqt]
                  exact List.cons_prefix_cons.mpr ⟨rfl, h⟩
                · have hqsplit : pat = (c :: α) ++ δ := by
                    rw [hqt, htαδ]
                    rfl
                  have hdrop2 : pat.drop (c :: α).length = δ := by
                    rw [hqsplit]
                    exact List.drop_left _ _
                  have hklt : (c :: α).length < pat.length := by
                    rw [hqsplit, List.length_append]
                    have := List.length_pos.mpr hδne
                    omega
                  exact he3 (c :: α).length hklt (by simp) (hdrop2 ▸ hδrep)
          · have hrest : rest.length ≤ n := by
              simp only [List.length_cons] at hs
              omega
            exact ih rest hrest hinf
  intro s
  exact main s.length s le_rfl

theorem prefix_pyreplace_preserve (pat rep q : PyStr)
    (hb1 : ¬ pat <:+: q) (hb2 : ¬ q <:+: pat)
    (hb5 : ∀ k, k < q.length → 0 < k → ¬ (q.drop k) <+: pat) :
    ∀ (s q' : PyStr), q' <:+ q → q' <+: s → q' <+: pyreplace pat rep s := by
  have main : ∀ (n : Nat) (s : PyStr), s.length ≤ n → ∀ q', q' <:+ q → q' <+: s →
      q' <+: pyreplace pat rep s := by
    intro n
    induction n with
    | zero =>
      intro s hs q' _ hpre
      have hnil : s = [] := List.length_eq_zero.mp (Nat.le_zero.mp hs)
      subst hnil
      rw [List.prefix_nil.mp hpre]
      exact List.nil_prefix
    | succ n ih =>
      intro s hs q' hq' hpre
      cases s with
      | nil =>
        rw [List.prefix_nil.mp hpre]
        exact List.nil_prefix
      | cons c rest =>
        by_cases hp : pat.isPrefixOf (c :: rest) = true
        · have hsplit : (c :: rest) = pat ++ ((c :: rest).drop pat.length) :=
            eq_append_dropOf (isPrefixOfEq.mp hp)
          rw [hsplit] at hpre
          rcases appendPrefixCases hpre with h | ⟨t, hq't, _⟩
          · by_cases hq'nil : q' = []
            · subst hq'nil
              exact List.nil_prefix
            · obtain ⟨pre, hpre'⟩ := hq'
              by_cases hprenil : pre = []
              · subst hprenil
                rw [List.nil_append] at hpre'
                subst hpre'
                exact absurd h.isInfix hb2
              · have hdropq : q.drop pre.length = q' := by
                  rw [← hpre']
                  exact List.drop_left _ _
                have hklt : pre.length < q.length := by
                  rw [← hpre', List.length_append]
                  have := List.length_pos.mpr hq'nil
                  omega
                exact absurd (hdropq ▸ h) (hb5 pre.length hklt (List.length_pos.mpr hprenil))
          · exfalso
            apply hb1
            have hpq' : pat <+: q' := hq't ▸ List.prefix_append pat t
            exact hpq'.isInfix.trans hq'.isInfix
        · rw [pyreplace_cons_nomatch hp]
          rcases List.prefix_cons_iff.mp hpre with h0 | ⟨t, hq't, htpre⟩
          · subst h0
            exact List.nil_prefix
          · have htq : t <:+ q := by
              refine List.IsSuffix.trans ?_ hq'
              rw [hq't]
              exact List.suffix_cons c t
            have hrest : rest.length ≤ n := by
              simp only [List.length_cons] at hs
              omega
            rw [hq't]
            exact List.cons_prefix_cons.mpr ⟨rfl, ih rest hrest t htq htpre⟩
  intro s
  exact main s.length s le_rfl

theorem sub_pyreplace_preserve (pat rep q : PyStr) (hpat : pat ≠ [])
    (hb1 : ¬ pat <:+: q) (hb2 : ¬ q <:+: pat)
    (hb3 : ∀ k, k < q.length → 0 < k → ¬ (q.take k) <:+ pat)
    (hb5 : ∀ k, k < q.length → 0 < k → ¬ (q.drop k) <+: pat) :
    ∀ s, q <:+: s → q <:+: pyreplace pat rep s := by
  have main : ∀ (n : Nat) (s : PyStr), s.length ≤ n → q <:+: s →
      q <:+: pyreplace pat rep s := by
    intro n
    induction n with
    | zero =>
      intro s hs hin
      have hnil : s = [] := List.length_eq_zero.mp (Nat.le_zero.mp hs)
      subst hnil
      rw [List.infix_nil] at hin
      subst hin
      exact List.nil_infix
    | succ n ih =>
      intro s hs hin
      cases s with
      | nil =>
        rw [List.infix_nil] at hin
        subst hin
        exact List.nil_infix
      | cons c rest =>
        by_cases hp : pat.isPrefixOf (c :: rest) = true
        · have hsplit : (c :: rest) = pat ++ ((c :: rest).drop pat.length) :=
            eq_append_dropOf (isPrefixOfEq.mp hp)
          rw [pyreplace_cons_match pat rep hpat hp]
          rw [hsplit] at hin
          rcases infixAppendCases hin with h | h | ⟨q1, q2, hq12, h1, h2, h3, _⟩
          · exact absurd h hb2
          · have hdroplen : ((c :: rest).drop pat.length).length ≤ n := by
              have hpos : 0 < pat.length := List.length_pos.mpr hpat
              rw [List.length_drop]
              simp only [List.length_cons] at hs ⊢
              omega
            exact (ih _ hdroplen h).trans (List.suffix_append rep _).isInfix
          · have htake : q.take q1.length = q1 := by
              rw [hq12]
              exact List.take_left q1 q2
            have hklt : q1.length < q.length := by
              rw [hq12, List.length_append]
              have := List.length_pos.mpr h2
              omega
            exact absurd (show q.take q1.length <:+ pat by rw [htake]; exact h3)
              (hb3 q1.length hklt (List.length_pos.mpr h1))
        · rw [pyreplace_cons_nomatch hp]
          rcases List.infix_cons_iff.mp hin with hpre | hinf
          · rcases List.prefix_cons_iff.mp hpre with h0 | ⟨t, hqt, htpre⟩
            · subst h0
              exact List.nil_infix
            · have htq : t <:+ q := by
                rw [hqt]
                exact List.suffix_cons c t
              have hrest : rest.length ≤ n := by
                simp only [List.length_cons] at hs
                omega
              have := prefix_pyreplace_preserve pat rep q hb1 hb2 hb5 rest t htq htpre
              apply List.IsPrefix.isInfix
              rw [hqt]
              exact List.cons_prefix_cons.mpr ⟨rfl, this⟩
          · have hrest : rest.length ≤ n := by
              simp only [List.length_cons] at hs
              omega
            exact List.infix_cons (ih rest hrest hinf)
  intro s
  exact main s.length s le_rfl

theorem prefix_append_left {α : Type} (a : List α) {w z : List α} (h : w <+: z) :
    a ++ w <+: a ++ z := by
  obtain ⟨t, ht⟩ := h
  exact ⟨t, by rw [List.append_assoc, ht]⟩

theorem sub_pyreplace_reconstruct (pat rep q : PyStr) (hpat : pat ≠ [])
    (hb1 : ¬ pat <:+: q) (hb2 : ¬ q <:+: pat)
    (hb5 : ∀ k, k < q.length → 0 < k → ¬ (q.drop k) <+: pat)
    (hr : ∀ k, k < q.length → 0 < k → (q.take k) <:+ pat → q.take k = rep) :
    ∀ s, q <:+: s → q <:+: pyreplace pat rep s := by
  have main : ∀ (n : Nat) (s : PyStr), s.length ≤ n → q <:+: s →
      q <:+: pyreplace pat rep s := by
    intro n
    induction n with
    | zero =>
      intro s hs hin
      have hnil : s = [] := List.length_eq_zero.mp (Nat.le_zero.mp hs)
      subst hnil
      rw [List.infix_nil] at hin
      subst hin
      exact List.nil_infix
    | succ n ih =>
      intro s hs hin
      cases s with
      | nil =>
        rw [List.infix_nil] at hin
        subst hin
        exact List.nil_infix
      | cons c rest =>
        by_cases hp : pat.isPrefixOf (c :: rest) = true
        · have hsplit : (c :: rest) = pat ++ ((c :: rest).drop pat.length) :=
            eq_append_dropOf (isPrefixOfEq.mp hp)
          rw [pyreplace_cons_match pat rep hpat hp]
          rw [hsplit] at hin
          rcases infixAppendCases hin with h | h | ⟨q1, q2, hq12, h1, h2, h3, h4⟩
          · exact absurd h hb2
          · have hdroplen : ((c :: rest).drop pat.length).length ≤ n := by
              have hpos : 0 < pat.length := List.length_pos.mpr hpat
              rw [List.length_drop]
              simp only [List.length_cons] at hs ⊢
              omega
            exact (ih _ hdroplen h).trans (List.suffix_append rep _).isInfix
          · have htake : q.take q1.length = q1 := by
              rw [hq12]
              exact List.take_left q1 q2
            have hdropq : q.drop q1.length = q2 := by
              rw [hq12]
              exact List.drop_left q1 q2
            have hklt : q1.length < q.length := by
              rw [hq12, List.length_append]
              have := List.length_pos.mpr h2
              omega
            have hq1rep : q1 = rep := by
              have hrr := hr q1.length hklt (List.length_pos.mpr h1)
                (by rw [htake]; exact h3)
              rw [htake] at hrr
              exact hrr
            have hq2suf : q2 <:+ q := by
              rw [← hdropq]
              exact List.drop_suffix _ _
            have hq2out : q2 <+: pyreplace pat rep ((c :: rest).drop pat.length) :=
              prefix_pyreplace_preserve pat rep q hb1 hb2 hb5 _ q2 hq2suf h4
            have hfin : q <+: rep ++ pyreplace pat rep ((c :: rest).drop pat.length) := by
              rw [hq12, hq1rep]
              exact prefix_append_left rep hq2out
            exact hfin.isInfix
        · rw [pyreplace_cons_nomatch hp]
          rcases List.infix_cons_iff.mp hin with hpre | hinf
          · rcases List.prefix_cons_iff.mp hpre with h0 | ⟨t, hqt, htpre⟩
            · subst h0
              exact List.nil_infix
            · have htq : t <:+ q := by
                rw [hqt]
                exact List.suffix_cons c t
              have hpp := prefix_pyreplace_preserve pat rep q hb1 hb2 hb5 rest t htq htpre
              apply List.IsPrefix.isInfix
              rw [hqt]
              exact List.cons_prefix_cons.mpr ⟨rfl, hpp⟩
          · have hrest : rest.length ≤ n := by
              simp only [List.length_cons] at hs
              omega
            exact List.infix_cons (ih rest hrest hinf)
  intro s
  exact main s.length s le_rfl

/-! ### Behaviour of `enforce_absolute_urls` -/

def httpWord : PyStr := "http".toList

theorem no_sub_mono {a b s : PyStr} (hab : a <:+: b) (h : ¬ a <:+: s) : ¬ b <:+: s :=
  fun hb => h (hab.trans hb)

theorem fixHttp_no_http (x : PyStr) : ¬ httpSch <:+: fixHttpScheme x :=
  not_pat_sub_pyreplace httpSch httpsSch (by decide) (by decide) (by decide) (by decide)
    (by decide) x

theorem collapse_no_http {s : PyStr} (h : ¬ httpSch <:+: s) :
    ¬ httpSch <:+: collapseDoubledScheme s := by
  apply not_sub_pyreplace doubledSch httpsSch httpSch (by decide) (by decide) (by decide)
    (by decide) s h
  intro k hk h0 hdrop
  exact absurd hdrop
    ((by decide : ∀ k, k < httpSch.length → 0 < k → ¬ (httpSch.drop k <+: httpsSch)) k hk h0)

theorem addLinkedin_no_http {s : PyStr} (h : ¬ httpSch <:+: s) :
    ¬ httpSch <:+: addLinkedinScheme s := by
  unfold addLinkedinScheme
  split
  · apply not_sub_pyreplace linkedinDom httpsLinkedin httpSch (by decide) (by decide)
      (by decide) (by decide) s h
    intro k hk h0 hdrop
    exact absurd hdrop
      ((by decide : ∀ k, k < httpSch.length → 0 < k →
        ¬ (httpSch.drop k <+: httpsLinkedin)) k hk h0)
  · exact h

theorem addGithub_no_http {s : PyStr} (h : ¬ httpSch <:+: s) :
    ¬ httpSch <:+: addGithubScheme s := by
  unfold addGithubScheme
  split
  · apply not_sub_pyreplace githubDom httpsGithub httpSch (by decide) (by decide)
      (by decide) (by decide) s h
    intro k hk h0 hdrop
    exact absurd hdrop
      ((by decide : ∀ k, k < httpSch.length → 0 < k →
        ¬ (httpSch.drop k <+: httpsGithub)) k hk h0)
  · exact h

theorem addPortfolio_no_http {s : PyStr} (h : ¬ httpSch <:+: s) :
    ¬ httpSch <:+: addPortfolioScheme s := by
  unfold addPortfolioScheme
  split
  · apply not_sub_pyreplace portfolioHost httpsPortfolio httpSch (by decide) (by decide)
      (by decide) (by decide) s h
    intro k hk h0 hdrop
    exact absurd hdrop
      ((by decide : ∀ k, k < httpSch.length → 0 < k →
        ¬ (httpSch.drop k <+: httpsPortfolio)) k hk h0)
  · exact h

theorem enforce_no_http (x : PyStr) : ¬ httpSch <:+: enforce_absolute_urls x := by
  unfold enforce_absolute_urls
  split
  · intro h
    exact absurd (List.infix_nil.mp h) (by decide)
  · exact collapse_no_http
      (addPortfolio_no_http (addGithub_no_http (addLinkedin_no_http
        (collapse_no_http (fixHttp_no_http x)))))

theorem enforce_adds_linkedin {x : PyStr} (hl : linkedinDom <:+: x) :
    httpsLinkedin <:+: enforce_absolute_urls x := by
  have hxne : x ≠ [] := fun he => by
    subst he
    exact absurd (List.infix_nil.mp hl) (by decide)
  unfold enforce_absolute_urls
  rw [if_neg hxne]
  have hl1 : linkedinDom <:+: fixHttpScheme x :=
    sub_pyreplace_preserve httpSch httpsSch linkedinDom (by decide) (by decide) (by decide)
      (by decide) (by decide) x hl
  have hl2 : linkedinDom <:+: collapseDoubledScheme (fixHttpScheme x) :=
    sub_pyreplace_preserve doubledSch httpsSch linkedinDom (by decide) (by decide)
      (by decide) (by decide) (by decide) _ hl1
  have hl3 : httpsLinkedin <:+:
      addLinkedinScheme (collapseDoubledScheme (fixHttpScheme x)) := by
    unfold addLinkedinScheme
    split
    case isTrue hcond => exact sub_pyreplace_of_sub (by decide) hl2
    case isFalse hcond =>
      by_contra hno
      apply hcond
      rw [Bool.and_eq_true]
      have hB : containsSub httpsLinkedin (collapseDoubledScheme (fixHttpScheme x)) =
          false := by
        rw [← Bool.not_eq_true, containsSub_iff]
        exact hno
      exact ⟨containsSub_iff.mpr hl2, by rw [hB]; rfl⟩
  have hl4 : httpsLinkedin <:+:
      addGithubScheme (addLinkedinScheme (collapseDoubledScheme (fixHttpScheme x))) := by
    unfold addGithubScheme
    split
    · exact sub_pyreplace_preserve githubDom httpsGithub httpsLinkedin (by decide)
        (by decide) (by decide) (by decide) (by decide) _ hl3
    · exact hl3
  have hl5 : httpsLinkedin <:+: addPortfolioScheme
      (addGithubScheme (addLinkedinScheme (collapseDoubledScheme (fixHttpScheme x)))) := by
    unfold addPortfolioScheme
    split
    case isTrue hcond =>
      exfalso
      rw [Bool.and_eq_true] at hcond
      have hB := hcond.2
      rw [Bool.not_eq_true'] at hB
      have hA : containsSub httpsSch (addGithubScheme (addLinkedinScheme
          (collapseDoubledScheme (fixHttpScheme x)))) = true :=
        containsSub_iff.mpr ((by decide : httpsSch <:+: httpsLinkedin).trans hl4)
      rw [hA] at hB
      exact Bool.noConfusion hB
    case isFalse => exact hl4
  exact sub_pyreplace_reconstruct doubledSch httpsSch httpsLinkedin (by decide) (by decide)
    (by decide) (by decide) (by decide) _ hl5

theorem enforce_adds_github {x : PyStr} (hg : githubDom <:+: x) :
    httpsGithub <:+: enforce_absolute_urls x := by
  have hxne : x ≠ [] := fun he => by
    subst he
    exact absurd (List.infix_nil.mp hg) (by decide)
  unfold enforce_absolute_urls
  rw [if_neg hxne]
  have hg1 : githubDom <:+: fixHttpScheme x :=
    sub_pyreplace_preserve httpSch httpsSch githubDom (by decide) (by decide) (by decide)
      (by decide) (by decide) x hg
  have hg2 : githubDom <:+: collapseDoubledScheme (fixHttpScheme x) :=
    sub_pyreplace_preserve doubledSch httpsSch githubDom (by decide) (by decide)
      (by decide) (by decide) (by decide) _ hg1
  have hg3 : githubDom <:+:
      addLinkedinScheme (collapseDoubledScheme (fixHttpScheme x)) := by
    unfold addLinkedinScheme
    split
    · exact sub_pyreplace_preserve linkedinDom httpsLinkedin githubDom (by decide)
        (by decide) (by decide) (by decide) (by decide) _ hg2
    · exact hg2
  have hg4 : httpsGithub <:+:
      addGithubScheme (addLinkedinScheme (collapseDoubledScheme (fixHttpScheme x))) := by
    unfold addGithubScheme
    split
    case isTrue hcond => exact sub_pyreplace_of_sub (by decide) hg3
    case isFalse hcond =>
      by_contra hno
      apply hcond
      rw [Bool.and_eq_true]
      have hB : containsSub httpsGithub (addLinkedinScheme
          (collapseDoubledScheme (fixHttpScheme x))) = false := by
        rw [← Bool.not_eq_true, containsSub_iff]
        exact hno
      exact ⟨containsSub_iff.mpr hg3, by rw [hB]; rfl⟩
  have hg5 : httpsGithub <:+: addPortfolioScheme
      (addGithubScheme (addLinkedinScheme (collapseDoubledScheme (fixHttpScheme x)))) := by
    unfold addPortfolioScheme
    split
    case isTrue hcond =>
      exfalso
      rw [Bool.and_eq_true] at hcond
      have hB := hcond.2
      rw [Bool.not_eq_true'] at hB
      have hA : containsSub httpsSch (addGithubScheme (addLinkedinScheme
          (collapseDoubledScheme (fixHttpScheme x)))) = true :=
        containsSub_iff.mpr ((by decide : httpsSch <:+: httpsGithub).trans hg4)
      rw [hA] at hB
      exact Bool.noConfusion hB
    case isFalse => exact hg4
  exact sub_pyreplace_reconstruct doubledSch httpsSch httpsGithub (by decide) (by decide)
    (by decide) (by decide) (by decide) _ hg5

theorem enforce_adds_portfolio {x : PyStr} (hh : ¬ httpWord <:+: x)
    (hp : portfolioHost <:+: x) (hnl : ¬ linkedinDom <:+: x)
    (hng : ¬ githubDom <:+: x) : httpsPortfolio <:+: enforce_absolute_urls x := by
  have hxne : x ≠ [] := fun he => by
    subst he
    exact absurd (List.infix_nil.mp hp) (by decide)
  unfold enforce_absolute_urls
  rw [if_neg hxne]
  have h1 : fixHttpScheme x = x := pyreplace_of_not_sub (no_sub_mono (by decide) hh)
  rw [h1]
  have h2 : collapseDoubledScheme x = x := pyreplace_of_not_sub (no_sub_mono (by decide) hh)
  rw [h2]
  have h3 : addLinkedinScheme x = x := by
    unfold addLinkedinScheme
    apply if_neg
    have hc : containsSub linkedinDom x = false := by
      rw [← Bool.not_eq_true, containsSub_iff]
      exact hnl
    rw [hc]
    simp
  rw [h3]
  have h4 : addGithubScheme x = x := by
    unfold addGithubScheme
    apply if_neg
    have hc : containsSub githubDom x = false := by
      rw [← Bool.not_eq_true, containsSub_iff]
      exact hng
    rw [hc]
    simp
  rw [h4]
  have hcond : (containsSub netlifyDom x && ! containsSub httpsSch x) = true := by
    rw [Bool.and_eq_true]
    constructor
    · exact containsSub_iff.mpr ((by decide : netlifyDom <:+: portfolioHost).trans hp)
    · have hc : containsSub httpsSch x = false := by
        rw [← Bool.not_eq_true, containsSub_iff]
        exact no_sub_mono (by decide) hh
      rw [hc]
      rfl
  have h5 : addPortfolioScheme x = pyreplace portfolioHost httpsPortfolio x := by
    unfold addPortfolioScheme
    rw [if_pos hcond]
  rw [h5]
  have hp5 : httpsPortfolio <:+: pyreplace portfolioHost httpsPortfolio x :=
    sub_pyreplace_of_sub (by decide) hp
  have hdd5 : ¬ doubledSch <:+: pyreplace portfolioHost httpsPortfolio x := by
    apply not_sub_pyreplace portfolioHost httpsPortfolio doubledSch (by decide) (by decide)
      (by decide) (by decide) x (no_sub_mono (by decide) hh)
    intro k hk h0 hdrop
    have hk8 : k = 8 :=
      (by decide : ∀ k, k < doubledSch.length → 0 < k →
        doubledSch.drop k <+: httpsPortfolio → k = 8) k hk h0 hdrop
    subst hk8
    have he : doubledSch.take 8 ++ portfolioHost = httpsPortfolio := by decide
    rw [he]
    exact no_sub_mono (by decide) hh
  have h6 : collapseDoubledScheme (pyreplace portfolioHost httpsPortfolio x) =
      pyreplace portfolioHost httpsPortfolio x := pyreplace_of_not_sub hdd5
  rw [h6]
  exact hp5

/-! ### Behaviour of the transform-prompt substitution -/

theorem transform_prompt_multiplier (template resume jd : PyStr) (tiw aim : Int)
    (hph : aimPh <:+: template) :
    intToPyStr aim <:+: buildTransformPrompt template resume jd tiw aim := by
  unfold buildTransformPrompt
  have h1 : aimPh <:+: pyreplace resumePh resume template :=
    sub_pyreplace_preserve resumePh resume aimPh (by decide) (by decide) (by decide)
      (by decide) (by decide) template hph
  have h2 : aimPh <:+: pyreplace jdPh jd (pyreplace resumePh resume template) :=
    sub_pyreplace_preserve jdPh jd aimPh (by decide) (by decide) (by decide)
      (by decide) (by decide) _ h1
  have h3 : aimPh <:+:
      pyreplace tiwPh (intToPyStr tiw) (pyreplace jdPh jd (pyreplace resumePh resume template)) :=
    sub_pyreplace_preserve tiwPh (intToPyStr tiw) aimPh (by decide) (by decide) (by decide)
      (by decide) (by decide) _ h2
  exact sub_pyreplace_of_sub (by decide) h3

/-! ### The claims -/

/-- The case-insensitive set of trimmed, non-empty comma tokens of a skills
string: the "skill set" a skills string denotes. -/
def normSet (s : PyStr) : List PyStr := (tokensOf s).map pylower

theorem normSet_nil : normSet [] = [] := rfl

theorem normSet_joinOrEmpty (L : List PyStr)
    (h : ∀ t ∈ L, pystrip t = t ∧ ',' ∉ t ∧ t ≠ []) :
    normSet (joinOrEmpty L) = L.map pylower := by
  unfold joinOrEmpty
  by_cases hL : L = []
  · subst hL
    rw [if_pos rfl, normSet_nil, List.map_nil]
  · rw [if_neg hL]
    unfold normSet
    rw [tokensOf_join L hL (fun t ht => (h t ht).2.1) (fun t ht => (h t ht).1)
      (fun t ht => (h t ht).2.2)]

/-- C1, counterexample to the claim as stated: a master keyword containing a
comma (`"a, b"`) never appears as a single comma-separated token of the
reconciled skills string, because joining and re-splitting cuts it apart. -/
theorem C1_counterexample :
    ¬ (∀ k ∈ (["a, b".toList] : List PyStr),
        normKw k ∈ (pysplit ',' (bruteForceAppend ["a, b".toList] ("".toList))).map normKw) := by
  decide

/-- C1 (amended): for every master keyword list `K` and draft skills string
`S`, every element of `K` that is non-empty and comma-free appears
case-insensitively (after whitespace trimming) as one of the comma-separated
tokens of the skills string produced by the Python-only brute-force keyword
append; the reconciliation is a total function on these inputs. -/
theorem C1_keyword_coverage (master : List PyStr) (skills : PyStr) (k : PyStr)
    (hk : k ∈ master) (hne : k ≠ []) (hfree : ',' ∉ k) :
    normKw k ∈ (pysplit ',' (bruteForceAppend master skills)).map normKw := by
  have hjd : normKw k ∈ jdSkillsSetOf master := by
    unfold jdSkillsSetOf
    exact List.mem_map.mpr ⟨k, List.mem_filter.mpr ⟨hk, by simpa using hne⟩, rfl⟩
  unfold bruteForceAppend
  by_cases hmiss : missingSkillsOf master skills = []
  · rw [if_pos hmiss]
    have hres : normKw k ∈ resumeSkillsSetOf skills := by
      by_contra hnot
      have hmem : normKw k ∈ missingSkillsOf master skills := by
        unfold missingSkillsOf
        exact List.mem_filter.mpr ⟨hjd, by simpa using hnot⟩
      rw [hmiss] at hmem
      exact List.not_mem_nil _ hmem
    unfold resumeSkillsSetOf at hres
    obtain ⟨t, ht, hkt⟩ := List.mem_map.mp hres
    have ht1 := (List.mem_filter.mp ht).1
    unfold splitTokens at ht1
    obtain ⟨u, hu, htu⟩ := List.mem_map.mp ht1
    refine List.mem_map.mpr ⟨u, hu, ?_⟩
    rw [← normKw_pystrip u, htu, hkt]
  · rw [if_neg hmiss]
    by_cases hres : normKw k ∈ resumeSkillsSetOf skills
    · unfold resumeSkillsSetOf at hres
      obtain ⟨t, ht, hkt⟩ := List.mem_map.mp hres
      have htf := List.mem_filter.mp ht
      obtain ⟨hstrip_t, hfree_t⟩ := mem_splitTokens htf.1
      have htL : t ∈ pySortedSet ((splitTokens skills ++
          originalCaseMissing master skills).filter (· ≠ [])) := by
        rw [mem_pySortedSet]
        exact List.mem_filter.mpr ⟨List.mem_append.mpr (Or.inl htf.1), htf.2⟩
      obtain ⟨u, hu, hus⟩ := mem_split_join _ t htL hfree_t
      refine List.mem_map.mpr ⟨u, hu, ?_⟩
      rw [← normKw_pystrip u, hus, normKw_pystrip t, hkt]
    · have hmissmem : normKw k ∈ missingSkillsOf master skills := by
        unfold missingSkillsOf
        exact List.mem_filter.mpr ⟨hjd, by simpa using hres⟩
      have hocm : k ∈ originalCaseMissing master skills := by
        unfold originalCaseMissing
        exact List.mem_filter.mpr ⟨hk, by simpa using And.intro hne hmissmem⟩
      have hkL : k ∈ pySortedSet ((splitTokens skills ++
          originalCaseMissing master skills).filter (· ≠ [])) := by
        rw [mem_pySortedSet]
        exact List.mem_filter.mpr ⟨List.mem_append.mpr (Or.inr hocm), by simpa using hne⟩
      obtain ⟨u, hu, hus⟩ := mem_split_join _ k hkL hfree
      refine List.mem_map.mpr ⟨u, hu, ?_⟩
      rw [← normKw_pystrip u, hus, normKw_pystrip k]

/-- C1 witness: the coverage theorem evaluated on a concrete instance. -/
theorem C1_witness :
    "Tableau".toList ∈ (["Tableau".toList] : List PyStr) ∧
    "Tableau".toList ≠ ([] : PyStr) ∧ ',' ∉ "Tableau".toList ∧
    normKw ("Tableau".toList) ∈
      (pysplit ',' (bruteForceAppend ["Tableau".toList] ("Python".toList))).map normKw :=
  ⟨by decide, by decide, by decide,
    C1_keyword_coverage ["Tableau".toList] ("Python".toList) ("Tableau".toList)
      (by decide) (by decide) (by decide)⟩

/-- C2, counterexample to the claim as stated: when no master keyword is
missing the skills string is returned unchanged, so for input `"b, a, a"` and
master list `[]` the result is neither deduplicated nor sorted. -/
theorem C2_counterexample :
    ¬ ((splitTokens (bruteForceAppend [] ("b, a, a".toList))).Nodup ∧
       List.Sorted lexLeR (splitTokens (bruteForceAppend [] ("b, a, a".toList)))) := by
  decide

/-- C2 (amended): whenever at least one master keyword is missing, the
reconciled skills string is the comma-join of a lexicographically sorted,
exact-string-deduplicated list whose elements are non-empty and are either
trimmed draft tokens or original-cased master-list entries; and on the
scenario (skills `"Python, SQL"`, master `["python", "Tableau", "SQL"]`) the
result is exactly `"Python, SQL, Tableau"`. -/
theorem C2_append_sorted_result :
    (∀ (master : List PyStr) (skills : PyStr), missingSkillsOf master skills ≠ [] →
      ∃ L, bruteForceAppend master skills = pyjoin (", ".toList) L ∧
        List.Sorted lexLeR L ∧ L.Nodup ∧
        ∀ t ∈ L, t ≠ [] ∧ (t ∈ splitTokens skills ∨ t ∈ master)) ∧
    bruteForceAppend ["python".toList, "Tableau".toList, "SQL".toList]
      ("Python, SQL".toList) = "Python, SQL, Tableau".toList := by
  constructor
  · intro master skills hmiss
    refine ⟨pySortedSet ((splitTokens skills ++
      originalCaseMissing master skills).filter (· ≠ [])), ?_,
      pySortedSet_sorted _, pySortedSet_nodup _, ?_⟩
    · unfold bruteForceAppend
      rw [if_neg hmiss]
    · intro t ht
      rw [mem_pySortedSet] at ht
      have hf := List.mem_filter.mp ht
      refine ⟨by simpa using hf.2, ?_⟩
      rcases List.mem_append.mp hf.1 with h | h
      · exact Or.inl h
      · exact Or.inr (List.mem_filter.mp h).1
  · decide

/-- C2 witness: the sortedness part evaluated on a concrete instance. -/
theorem C2_witness :
    missingSkillsOf ["Tableau".toList] ("Python".toList) ≠ [] ∧
    ∃ L, bruteForceAppend ["Tableau".toList] ("Python".toList) = pyjoin (", ".toList) L ∧
      List.Sorted lexLeR L ∧ L.Nodup ∧
      ∀ t ∈ L, t ≠ [] ∧ (t ∈ splitTokens ("Python".toList) ∨ t ∈ ["Tableau".toList]) :=
  ⟨by decide, C2_append_sorted_result.1 ["Tableau".toList] ("Python".toList) (by decide)⟩

/-- C3, counterexample to the claim as stated: the union at line 1637 is a
Python `set` of exact strings, so `"SQL"` from stage 1 and `"sql"` from the
verification stage both survive — two elements equal up to case-folding. -/
theorem C3_counterexample :
    ¬ ((master_keyword_list ⟨["SQL".toList], [], [], []⟩ ["sql".toList]).Pairwise
        (fun a b => normKw a ≠ normKw b)) := by
  decide

/-- C3 (amended): the MasterKeywordList is the union of the (non-empty)
flattened stage-1 keywords and the verified-missing keywords, deduplicated by
exact string equality and lexicographically sorted; keywords differing only
in case or whitespace remain distinct entries. -/
theorem C3_master_union (k : JDKeywords) (missing : List PyStr) :
    (master_keyword_list k missing).Nodup ∧
    List.Sorted lexLeR (master_keyword_list k missing) ∧
    ∀ x, x ∈ master_keyword_list k missing ↔
      ((x ∈ jdAllSkillsList k ∧ x ≠ []) ∨ x ∈ missing) := by
  refine ⟨pySortedSet_nodup _, pySortedSet_sorted _, fun x => ?_⟩
  unfold master_keyword_list
  rw [mem_pySortedSet, List.mem_append]
  constructor
  · rintro (h | h)
    · unfold jdAllSkillsSet at h
      rw [mem_pySortedSet] at h
      have hf := List.mem_filter.mp h
      exact Or.inl ⟨hf.1, by simpa using hf.2⟩
    · exact Or.inr h
  · rintro (⟨h1, h2⟩ | h)
    · left
      unfold jdAllSkillsSet
      rw [mem_pySortedSet]
      exact List.mem_filter.mpr ⟨h1, by simpa using h2⟩
    · exact Or.inr h

/-- C4: the skills partition splits the comma tokens into visible and
invisible groups whose case-insensitive skill sets union to the original
skill set with empty intersection, and an empty input yields two empty
strings (never absent values). -/
theorem C4_partition_complete (hard soft : List PyStr) (skills : PyStr) :
    (∀ x, (x ∈ normSet (partitionSkillsStr hard soft skills).1 ∨
           x ∈ normSet (partitionSkillsStr hard soft skills).2) ↔ x ∈ normSet skills) ∧
    (∀ x, ¬ (x ∈ normSet (partitionSkillsStr hard soft skills).1 ∧
             x ∈ normSet (partitionSkillsStr hard soft skills).2)) ∧
    (skills = [] → partitionSkillsStr hard soft skills = ([], [])) := by
  unfold partitionSkillsStr
  by_cases hs : skills = []
  · rw [if_pos hs]
    subst hs
    refine ⟨fun x => ?_, fun x => ?_, fun _ => rfl⟩
    · show (x ∈ normSet [] ∨ x ∈ normSet []) ↔ x ∈ normSet []
      rw [normSet_nil]
      simp
    · show ¬ (x ∈ normSet [] ∧ x ∈ normSet [])
      rw [normSet_nil]
      simp
  · rw [if_neg hs]
    have hvisP : ∀ t ∈ visibleSkillsOf hard soft skills, pystrip t = t ∧ ',' ∉ t ∧ t ≠ [] :=
      fun t ht => mem_tokensOf (List.mem_filter.mp ht).1
    have hinvP : ∀ t ∈ invisibleSkillsOf hard soft skills, pystrip t = t ∧ ',' ∉ t ∧ t ≠ [] :=
      fun t ht => mem_tokensOf (List.mem_filter.mp ht).1
    show (∀ x, (x ∈ normSet (joinOrEmpty (visibleSkillsOf hard soft skills)) ∨
           x ∈ normSet (joinOrEmpty (invisibleSkillsOf hard soft skills))) ↔
           x ∈ normSet skills) ∧ _
    rw [normSet_joinOrEmpty _ hvisP, normSet_joinOrEmpty _ hinvP]
    refine ⟨fun x => ?_, fun x => ?_, fun he => absurd he hs⟩
    · constructor
      · rintro (hx | hx) <;> obtain ⟨t, ht, rfl⟩ := List.mem_map.mp hx
        · exact List.mem_map.mpr ⟨t, (List.mem_filter.mp ht).1, rfl⟩
        · exact List.mem_map.mpr ⟨t, (List.mem_filter.mp ht).1, rfl⟩
      · intro hx
        obtain ⟨t, ht, rfl⟩ := List.mem_map.mp hx
        by_cases hp : pylower t ∈ visibleSetOf hard soft
        · left
          refine List.mem_map.mpr ⟨t, ?_, rfl⟩
          unfold visibleSkillsOf
          exact List.mem_filter.mpr ⟨ht, by simpa using hp⟩
        · right
          refine List.mem_map.mpr ⟨t, ?_, rfl⟩
          unfold invisibleSkillsOf
          exact List.mem_filter.mpr ⟨ht, by simpa using hp⟩
    · rintro ⟨h1, h2⟩
      obtain ⟨t1, ht1, hx1⟩ := List.mem_map.mp h1
      obtain ⟨t2, ht2, hx2⟩ := List.mem_map.mp h2
      have p1 : pylower t1 ∈ visibleSetOf hard soft := by
        have := (List.mem_filter.mp ht1).2
        simpa using this
      have p2 : ¬ pylower t2 ∈ visibleSetOf hard soft := by
        have := (List.mem_filter.mp ht2).2
        simpa using this
      rw [hx1, ← hx2] at p1
      exact p2 p1

/-- C4 witness: the empty-skills clause evaluated on a concrete instance. -/
theorem C4_witness :
    partitionSkillsStr ["Python".toList] [] [] = ([], []) :=
  (C4_partition_complete ["Python".toList] [] []).2.2 rfl

/-- C5: evaluation of the normalizer at the failing input.  The function's own
comment (line 123) calls the last `replace` a "final cleanup of any duplicates
the previous logic might have missed", yet on six consecutive `https://`
schemes the output still contains `https://https://`, and normalizing a second
time changes the string — the claimed idempotence fails. -/
theorem C5_not_idempotent :
    enforce_absolute_urls ("https://https://https://https://https://https://".toList) =
      "https://https://".toList ∧
    doubledSch <:+:
      enforce_absolute_urls ("https://https://https://https://https://https://".toList) ∧
    enforce_absolute_urls (enforce_absolute_urls
        ("https://https://https://https://https://https://".toList)) ≠
      enforce_absolute_urls ("https://https://https://https://https://https://".toList) := by
  refine ⟨by decide, by decide, by decide⟩

/-- C6, counterexample to the claim as stated: (a) in
`"ayaanahmad-portfolio.netlify.app, https://github.com/y"` the portfolio host
is bare (no scheme for that specific domain), yet the normalizer leaves the
line unchanged because its netlify condition checks for `https://` anywhere in
the line; (b) on six consecutive schemes a doubled prefix survives, so not
every doubled scheme prefix is collapsed. -/
theorem C6_counterexample :
    enforce_absolute_urls ("ayaanahmad-portfolio.netlify.app, https://github.com/y".toList) =
      "ayaanahmad-portfolio.netlify.app, https://github.com/y".toList ∧
    ¬ httpsPortfolio <:+: enforce_absolute_urls
        ("ayaanahmad-portfolio.netlify.app, https://github.com/y".toList) ∧
    doubledSch <:+: enforce_absolute_urls
        ("https://https://https://https://https://https://".toList) := by
  refine ⟨by decide, by decide, by decide⟩

/-- C6 (amended): the normalizer's output never contains `http://` (every
occurrence is rewritten to `https://`); on EVERY contact line, a present
`linkedin.com` (resp. `github.com`) ends up schemed as `https://linkedin.com`
(resp. `https://github.com`) in the output — the per-domain guard of lines
116-119 either fires or finds the schemed occurrence already present, and the
final doubled-scheme collapse re-supplies the `https://` prefix it may
consume; the portfolio host gains its scheme only when the line contains no
scheme anywhere (here proved for lines with no `http` substring and neither
of the other two domains); and the scenario
`"linkedin.com/in/x, http://github.com/y"` normalizes to
`"https://linkedin.com/in/x, https://github.com/y"`. -/
theorem C6_normalizer_behaviour :
    (∀ x, ¬ httpSch <:+: enforce_absolute_urls x) ∧
    (∀ x, linkedinDom <:+: x → httpsLinkedin <:+: enforce_absolute_urls x) ∧
    (∀ x, githubDom <:+: x → httpsGithub <:+: enforce_absolute_urls x) ∧
    (∀ x, ¬ httpWord <:+: x → portfolioHost <:+: x → ¬ linkedinDom <:+: x →
      ¬ githubDom <:+: x → httpsPortfolio <:+: enforce_absolute_urls x) ∧
    enforce_absolute_urls ("linkedin.com/in/x, http://github.com/y".toList) =
      "https://linkedin.com/in/x, https://github.com/y".toList :=
  ⟨enforce_no_http, fun _ hl => enforce_adds_linkedin hl,
    fun _ hg => enforce_adds_github hg,
    fun _ hh hp hnl hng => enforce_adds_portfolio hh hp hnl hng, by decide⟩

/-- C6 witness: the linkedin clause evaluated on a line that already carries
another `https://` link (the case the per-domain guard must not disturb). -/
theorem C6_witness :
    linkedinDom <:+: "linkedin.com/in/x, https://github.com/y".toList ∧
    httpsLinkedin <:+:
      enforce_absolute_urls ("linkedin.com/in/x, https://github.com/y".toList) :=
  ⟨by decide,
    C6_normalizer_behaviour.2.1 ("linkedin.com/in/x, https://github.com/y".toList)
      (by decide)⟩

/-- C7: when every attempt raises a server-side (5xx) status, the gateway
issues exactly 5 attempts, sleeps the exponential-backoff-plus-linear-jitter
delay `base*2^attempt + attempt/10` after each failed attempt, and returns the
generic failure value instead of raising. -/
theorem C7_retry_ceiling (responses : Nat → AttemptOutcome)
    (h : ∀ i, i < max_retries → ∃ code body, responses i = .httpStatus code body ∧
      500 ≤ code ∧ code < 600) :
    call_gemini_api responses = ⟨.retriesExhausted, 5,
      [backoffDelay base_delay 0, backoffDelay base_delay 1, backoffDelay base_delay 2,
       backoffDelay base_delay 3, backoffDelay base_delay 4]⟩ := by
  obtain ⟨c0, b0, h0, hge0, hlt0⟩ := h 0 (by norm_num [max_retries])
  obtain ⟨c1, b1, h1, hge1, hlt1⟩ := h 1 (by norm_num [max_retries])
  obtain ⟨c2, b2, h2, hge2, hlt2⟩ := h 2 (by norm_num [max_retries])
  obtain ⟨c3, b3, h3, hge3, hlt3⟩ := h 3 (by norm_num [max_retries])
  obtain ⟨c4, b4, h4, hge4, hlt4⟩ := h 4 (by norm_num [max_retries])
  show callGeminiGo responses max_retries 0 = _
  have e : max_retries = 5 := rfl
  rw [e]
  simp only [callGeminiGo, h0, h1, h2, h3, h4]
  rw [if_neg (by omega), if_neg (by omega), if_neg (by omega), if_neg (by omega),
    if_neg (by omega)]

/-- C7 witness: the retry ceiling evaluated on the constant-503 gateway. -/
theorem C7_witness :
    (∀ i, i < max_retries →
      ∃ code body, (fun _ => AttemptOutcome.httpStatus 503 ([] : PyStr)) i =
        .httpStatus code body ∧ 500 ≤ code ∧ code < 600) ∧
    call_gemini_api (fun _ => AttemptOutcome.httpStatus 503 ([] : PyStr)) =
      ⟨.retriesExhausted, 5,
        [backoffDelay base_delay 0, backoffDelay base_delay 1, backoffDelay base_delay 2,
         backoffDelay base_delay 3, backoffDelay base_delay 4]⟩ :=
  ⟨fun _ _ => ⟨503, [], rfl, by omega, by omega⟩,
    C7_retry_ceiling (fun _ => AttemptOutcome.httpStatus 503 ([] : PyStr))
      (fun _ _ => ⟨503, [], rfl, by omega, by omega⟩)⟩

/-- C9, counterexample to the claim as stated: the endpoint performs no
clamping — a multiplier of 7 resolves to 7 and is substituted verbatim into
the transform prompt, violating "always in {2,3,5}". -/
theorem C9_counterexample :
    resolveIntForm (.value 7) 2 = .ok 7 ∧
    buildTransformPrompt
      ("AI Multiplier for project scaling: [Optional: AI_MULTIPLIER e.g., 3]".toList)
      [] [] 2 7 =
      "AI Multiplier for project scaling: 7".toList ∧
    ¬ ((7 : Int) = 2 ∨ (7 : Int) = 3 ∨ (7 : Int) = 5) :=
  ⟨rfl, by decide, by decide⟩

/-- C9 (amended): the defaults of 2 apply only when a field is absent; an
unparseable field is rejected with a 422 validation error rather than
defaulted; a parsed multiplier is passed through without any clamping, and
whenever the template contains the multiplier placeholder the built transform
prompt contains the decimal string of exactly the integer that arrived. -/
theorem C9_no_clamping :
    (∀ d, resolveIntForm .absent d = .ok d) ∧
    (∀ d, resolveIntForm .invalid d = .error 422) ∧
    (∀ n d, resolveIntForm (.value n) d = .ok n) ∧
    (∀ template resume jd tiw aim, aimPh <:+: template →
      intToPyStr aim <:+: buildTransformPrompt template resume jd tiw aim) :=
  ⟨fun _ => rfl, fun _ => rfl, fun _ _ => rfl,
    fun template resume jd tiw aim hph =>
      transform_prompt_multiplier template resume jd tiw aim hph⟩

/-- C9 witness: the substitution clause evaluated on a concrete template. -/
theorem C9_witness :
    aimPh <:+: "x [Optional: AI_MULTIPLIER e.g., 3] y".toList ∧
    intToPyStr 7 <:+:
      buildTransformPrompt ("x [Optional: AI_MULTIPLIER e.g., 3] y".toList)
        ("r".toList) ("j".toList) 2 7 :=
  ⟨by decide,
    C9_no_clamping.2.2.2 ("x [Optional: AI_MULTIPLIER e.g., 3] y".toList)
      ("r".toList) ("j".toList) 2 7 (by decide)⟩

/-- C10: on the normal path the partition step always stores both
`skills_visible` and `skills_invisible` (possibly empty) and deletes the
`skills` key; on the exception fallback the same holds provided the `skills`
key was present. -/
theorem C10_partition_fields (hard soft : List PyStr) (r : PyResume) :
    ((partitionSkillsStep hard soft r).skills_visible.isSome = true ∧
     (partitionSkillsStep hard soft r).skills_invisible.isSome = true ∧
     (partitionSkillsStep hard soft r).skills = none) ∧
    (r.skills.isSome = true →
      ((partitionSkillsFallback r).skills_visible.isSome = true ∧
       (partitionSkillsFallback r).skills_invisible.isSome = true ∧
       (partitionSkillsFallback r).skills = none)) := by
  refine ⟨⟨rfl, rfl, rfl⟩, fun h => ?_⟩
  unfold partitionSkillsFallback
  rw [if_pos h]
  exact ⟨rfl, rfl, rfl⟩

/-- C10 witness: the fallback clause evaluated on a concrete object. -/
theorem C10_witness :
    (PyResume.mk (some ("a".toList)) none none []).skills.isSome = true ∧
    ((partitionSkillsFallback
        (PyResume.mk (some ("a".toList)) none none [])).skills_visible.isSome = true ∧
     (partitionSkillsFallback
        (PyResume.mk (some ("a".toList)) none none [])).skills_invisible.isSome = true ∧
     (partitionSkillsFallback
        (PyResume.mk (some ("a".toList)) none none [])).skills = none) :=
  ⟨rfl, (C10_partition_fields [] [] (PyResume.mk (some ("a".toList)) none none [])).2 rfl⟩
